import Mathlib

/-!
Verification of the video-discovery pipeline in `src/script.js`.

Strings are modelled as `List Char` (JavaScript strings restricted to
Unicode scalar values).  JavaScript built-ins used by the source
(`encodeURIComponent`, `decodeURIComponent`, `trim`, `split`, `join`,
`toLowerCase`, `localeCompare` with numeric collation) are modelled
explicitly below; functions that can throw are modelled with `Except`
(`Option` for `decodeURIComponent` at the primitive level).
-/

set_option maxHeartbeats 1000000

namespace VideoLib

/-- Lowercases an ASCII letter; models the ASCII behaviour of JavaScript
case-insensitive regex matching and `String.prototype.toLowerCase`. -/
def lowerChar (c : Char) : Char :=
  if 65 ≤ c.toNat ∧ c.toNat ≤ 90 then Char.ofNat (c.toNat + 32) else c

/-- Characters left unescaped by JavaScript `encodeURIComponent`:
ASCII alphanumerics and `-_.!~*'()`. -/
def isUnreserved (c : Char) : Bool :=
  (65 ≤ c.toNat && c.toNat ≤ 90) || (97 ≤ c.toNat && c.toNat ≤ 122) ||
  (48 ≤ c.toNat && c.toNat ≤ 57) ||
  c.toNat == 45 || c.toNat == 95 || c.toNat == 46 || c.toNat == 33 ||
  c.toNat == 126 || c.toNat == 42 || c.toNat == 39 || c.toNat == 40 ||
  c.toNat == 41

/-- Uppercase hexadecimal digit for a value below 16, as produced by
JavaScript percent-escaping. -/
def hexDigit (n : Nat) : Char :=
  if n < 10 then Char.ofNat (48 + n) else Char.ofNat (55 + n)

/-- Numeric value of a hexadecimal digit character (either case),
`none` otherwise. -/
def hexVal (c : Char) : Option Nat :=
  if 48 ≤ c.toNat ∧ c.toNat ≤ 57 then some (c.toNat - 48)
  else if 65 ≤ c.toNat ∧ c.toNat ≤ 70 then some (c.toNat - 55)
  else if 97 ≤ c.toNat ∧ c.toNat ≤ 102 then some (c.toNat - 87)
  else none

/-- Percent-escape of one byte: `%XY` with uppercase hex digits. -/
def escapeByte (b : Nat) : List Char :=
  ['%', hexDigit (b / 16), hexDigit (b % 16)]

/-- UTF-8 byte sequence of a Unicode scalar value. -/
def utf8Bytes (n : Nat) : List Nat :=
  if n < 128 then [n]
  else if n < 2048 then [192 + n / 64, 128 + n % 64]
  else if n < 65536 then [224 + n / 4096, 128 + (n / 64) % 64, 128 + n % 64]
  else [240 + n / 262144, 128 + (n / 4096) % 64, 128 + (n / 64) % 64, 128 + n % 64]

/-- How JavaScript `encodeURIComponent` renders a single character. -/
def percentEncodeChar (c : Char) : List Char :=
  if isUnreserved c then [c] else (utf8Bytes c.toNat).flatMap escapeByte

/-- Model of JavaScript `encodeURIComponent`. -/
def encodeURIComponent (l : List Char) : List Char :=
  l.flatMap percentEncodeChar

/-- Value of one continuation-byte escape `%XY`: the byte when it is a valid
UTF-8 continuation byte (`0x80`-`0xBF`), `none` otherwise. -/
def contByte (c h1 h2 : Char) : Option Nat :=
  if c = '%' then
    match hexVal h1, hexVal h2 with
    | some a, some b =>
      if 128 ≤ 16 * a + b ∧ 16 * a + b < 192 then some (16 * a + b) else none
    | _, _ => none
  else none

/-- Decodes one percent-escape sequence: given the two hex digits of the lead
byte and the remaining input, reads any continuation escapes required by the
lead byte and yields the decoded character plus the input remaining after the
sequence.  Strict UTF-8: truncated sequences, stray or malformed continuation
escapes, overlong forms, surrogates and out-of-range values are rejected. -/
def decodeSeq (h1 h2 : Char) (r2 : List Char) : Option (Char × List Char) :=
  match hexVal h1, hexVal h2 with
  | some a1, some b1 =>
    if 16 * a1 + b1 < 128 then some (Char.ofNat (16 * a1 + b1), r2)
    else if 16 * a1 + b1 < 194 then none
    else if 16 * a1 + b1 < 224 then
      match r2 with
      | c2 :: h3 :: h4 :: r3 =>
        match contByte c2 h3 h4 with
        | some v2 => some (Char.ofNat ((16 * a1 + b1 - 192) * 64 + (v2 - 128)), r3)
        | none => none
      | _ => none
    else if 16 * a1 + b1 < 240 then
      match r2 with
      | c2 :: h3 :: h4 :: c3 :: h5 :: h6 :: r4 =>
        match contByte c2 h3 h4, contByte c3 h5 h6 with
        | some v2, some v3 =>
          if 2048 ≤ (16 * a1 + b1 - 224) * 4096 + (v2 - 128) * 64 + (v3 - 128) ∧
             ((16 * a1 + b1 - 224) * 4096 + (v2 - 128) * 64 + (v3 - 128) < 55296 ∨
              57343 < (16 * a1 + b1 - 224) * 4096 + (v2 - 128) * 64 + (v3 - 128)) then
            some (Char.ofNat ((16 * a1 + b1 - 224) * 4096 + (v2 - 128) * 64 + (v3 - 128)), r4)
          else none
        | _, _ => none
      | _ => none
    else
      match r2 with
      | c2 :: h3 :: h4 :: c3 :: h5 :: h6 :: c4 :: h7 :: h8 :: r5 =>
        match contByte c2 h3 h4, contByte c3 h5 h6, contByte c4 h7 h8 with
        | some v2, some v3, some v4 =>
          if 65536 ≤ (16 * a1 + b1 - 240) * 262144 + (v2 - 128) * 4096 + (v3 - 128) * 64 +
               (v4 - 128) ∧
             (16 * a1 + b1 - 240) * 262144 + (v2 - 128) * 4096 + (v3 - 128) * 64 +
               (v4 - 128) ≤ 1114111 then
            some (Char.ofNat ((16 * a1 + b1 - 240) * 262144 + (v2 - 128) * 4096 +
              (v3 - 128) * 64 + (v4 - 128)), r5)
          else none
        | _, _, _ => none
      | _ => none
  | _, _ => none

theorem decodeSeq_tail_le (h1 h2 : Char) (r2 : List Char) (ch : Char) (r3 : List Char)
    (h : decodeSeq h1 h2 r2 = some (ch, r3)) : r3.length ≤ r2.length := by
  unfold decodeSeq at h
  repeat' split at h
  all_goals simp only [Option.some.injEq, Prod.mk.injEq, reduceCtorEq] at h
  all_goals obtain ⟨hch, htl⟩ := h
  all_goals subst htl
  all_goals first
    | exact Nat.le_refl _
    | (simp only [List.length_cons]; omega)

/-- Reads one full percent-escape sequence from the input following a `%`:
requires two hex digits and any continuation escapes demanded by the lead
byte, yielding the decoded character and the remaining input. -/
def pdStep (rest : List Char) : Option (Char × List Char) :=
  match rest with
  | h1 :: h2 :: r2 => decodeSeq h1 h2 r2
  | _ => none

theorem pdStep_tail_le (rest : List Char) (ch : Char) (r3 : List Char)
    (h : pdStep rest = some (ch, r3)) : r3.length ≤ rest.length := by
  unfold pdStep at h
  split at h
  · have := decodeSeq_tail_le _ _ _ _ _ h
    simp only [List.length_cons]
    omega
  · exact absurd h (by simp)

/-- The decode loop, structurally recursive on a fuel bound (always called
with fuel at least the input length, so the fuel never runs out). -/
def pdFuel : Nat → List Char → Option (List Char)
  | _, [] => some []
  | 0, _ :: _ => none
  | fuel + 1, c :: rest =>
    if c = '%' then
      match pdStep rest with
      | some (ch, r3) => (pdFuel fuel r3).map (fun t => ch :: t)
      | none => none
    else
      (pdFuel fuel rest).map (fun t => c :: t)

/-- Model of JavaScript `decodeURIComponent`: percent-escape sequences are
decoded as strict UTF-8; `none` models the `URIError` throw on malformed
input. -/
def percentDecode (l : List Char) : Option (List Char) :=
  pdFuel l.length l

theorem pdFuel_irrel (fuel1 : Nat) : ∀ (fuel2 : Nat) (l : List Char),
    l.length ≤ fuel1 → l.length ≤ fuel2 → pdFuel fuel1 l = pdFuel fuel2 l := by
  induction fuel1 with
  | zero =>
    intro fuel2 l h1 h2
    match l with
    | [] =>
      match fuel2 with
      | 0 => rfl
      | f + 1 => rfl
    | c :: rest => simp at h1
  | succ f1 ih =>
    intro fuel2 l h1 h2
    match l with
    | [] =>
      match fuel2 with
      | 0 => rfl
      | f + 1 => rfl
    | c :: rest =>
      match fuel2 with
      | 0 => simp at h2
      | f2 + 1 =>
        rw [pdFuel, pdFuel]
        simp only [List.length_cons] at h1 h2
        by_cases hc : c = '%'
        · rw [if_pos hc, if_pos hc]
          cases hps : pdStep rest with
          | some pr =>
            obtain ⟨ch, r3⟩ := pr
            have hle := pdStep_tail_le rest ch r3 hps
            dsimp only
            rw [ih f2 r3 (by omega) (by omega)]
          | none => rfl
        · rw [if_neg hc, if_neg hc, ih f2 rest (by omega) (by omega)]
/-! ### Path resolution (`resolveVideoPath`, src/script.js lines 261-285) -/

/-- The fixed base directory `videos/` (`videosDirectory` in the source). -/
def videosDirectory : List Char := "videos/".data

/-- Model of the regex test `/^https?:/i.test(rawPath)`. -/
def matchesHttpScheme (s : List Char) : Bool :=
  List.isPrefixOf "http:".data (s.map lowerChar) ||
  List.isPrefixOf "https:".data (s.map lowerChar)

/-- The whitespace class removed by `String.prototype.trim`. -/
def isJsWs (c : Char) : Bool :=
  c.toNat == 9 || c.toNat == 10 || c.toNat == 11 || c.toNat == 12 || c.toNat == 13 ||
  c.toNat == 32 || c.toNat == 160 || c.toNat == 5760 ||
  (8192 ≤ c.toNat && c.toNat ≤ 8202) || c.toNat == 8232 || c.toNat == 8233 ||
  c.toNat == 8239 || c.toNat == 8287 || c.toNat == 12288 || c.toNat == 65279

/-- Model of `String.prototype.trim`. -/
def trimJs (l : List Char) : List Char :=
  ((l.dropWhile isJsWs).reverse.dropWhile isJsWs).reverse

/-- A forward or backward slash, the separator class of the sanitizing regex. -/
def isPathSep (c : Char) : Bool := c == '/' || c == '\\'

/-- Model of `replace(/^\.?(?:\\|\/)+/, "")`: removes an optional leading dot
followed by one or more slashes or backslashes; if no separator follows the
optional dot the string is unchanged (the regex requires at least one). -/
def stripDotSlashes (l : List Char) : List Char :=
  match l with
  | [] => []
  | c :: rest =>
    if c = '.' then
      match rest with
      | c2 :: rest2 => if isPathSep c2 then List.dropWhile isPathSep rest2 else l
      | [] => l
    else if isPathSep c then List.dropWhile isPathSep rest else l

/-- Model of `String.prototype.split("/")`: always returns at least one
(possibly empty) field. -/
def splitOnSlash : List Char → List (List Char)
  | [] => [[]]
  | c :: rest =>
    if c = '/' then [] :: splitOnSlash rest
    else
      match splitOnSlash rest with
      | s :: ss => (c :: s) :: ss
      | [] => [[c]]

/-- Model of `Array.prototype.join("/")`. -/
def joinSlash : List (List Char) → List Char
  | [] => []
  | [s] => s
  | s :: ss => s ++ '/' :: joinSlash ss

/-- Re-encoding of one path segment:
`encodeURIComponent(decodeURIComponent(segment))`, with the `catch` branch
falling back to `encodeURIComponent(segment)` when decoding throws. -/
def encodeSegment (seg : List Char) : List Char :=
  match percentDecode seg with
  | some d => encodeURIComponent d
  | none => encodeURIComponent seg

/-- The indexed map inside `resolveVideoPath`: the segment at index 0 is kept
verbatim, every later segment is re-encoded. -/
def encodeSegments : List (List Char) → List (List Char)
  | [] => []
  | s :: ss => s :: ss.map encodeSegment

/-- The `sanitized` local of `resolveVideoPath`:
`rawPath.trim().replace(/^\.?(?:\\|\/)+/, "")`. -/
def sanitizedPath (rawPath : List Char) : List Char :=
  stripDotSlashes (trimJs rawPath)

/-- The `relative` local of `resolveVideoPath`: prefix with the base
directory unless already present. -/
def relativePath (rawPath : List Char) : List Char :=
  if List.isPrefixOf videosDirectory (sanitizedPath rawPath) then sanitizedPath rawPath
  else videosDirectory ++ sanitizedPath rawPath

/-- Model of `resolveVideoPath` (src/script.js lines 261-285). -/
def resolveVideoPath (rawPath : List Char) : List Char :=
  if matchesHttpScheme rawPath then rawPath
  else joinSlash (encodeSegments (splitOnSlash (relativePath rawPath)))

/-- Model of `nameFromPath` (src/script.js lines 287-290):
`path.split("?")[0].split("/").pop() || ""`. -/
def nameFromPath (path : List Char) : List Char :=
  (splitOnSlash (path.takeWhile (fun c => c != '?'))).getLastD []


/-! ### JavaScript value model, entries, and the normalizer -/

/-- Primitive JavaScript values that can appear in a record field. -/
inductive JsVal where
  | vUndefined
  | vNull
  | vBool (b : Bool)
  | vNum (n : Int)
  | vStr (s : List Char)
deriving DecidableEq, Repr

/-- Error classes thrown by the modelled code: the generic `Error`s of the
source distinguished by their message (manifest not found, non-ok status,
bad manifest shape, empty listing), plus `TypeError` (method call on a
non-string / property access on null) and `URIError` (malformed escape in
`decodeURIComponent`). -/
inductive JsErr where
  | notFound
  | fetchError
  | formatError
  | emptyError
  | typeError
  | uriError
deriving DecidableEq, Repr

instance instDecEqExcept {ε α : Type} [DecidableEq ε] [DecidableEq α] :
    DecidableEq (Except ε α)
  | .ok a, .ok b =>
    if h : a = b then .isTrue (by rw [h]) else .isFalse (by intro he; cases he; exact h rfl)
  | .ok _, .error _ => .isFalse (by intro he; cases he)
  | .error _, .ok _ => .isFalse (by intro he; cases he)
  | .error e, .error f =>
    if h : e = f then .isTrue (by rw [h]) else .isFalse (by intro he; cases he; exact h rfl)

/-- A raw record from either source: a bare string, a loosely typed object
(each field possibly absent, modelled by `vUndefined`), or another primitive. -/
inductive RawRecord where
  | rStr (s : List Char)
  | rObj (nameF fileF titleF urlF posterF thumbF : JsVal)
  | rNull
  | rUndefined
  | rNum (n : Int)
  | rBool (b : Bool)
deriving DecidableEq, Repr

/-- A produced video entry.  `poster = none` models an absent `poster` field
(the bare-string branch produces no such field), `poster = some v` a present
field holding the primitive `v`. -/
structure VideoEntry where
  name : List Char
  url : List Char
  poster : Option JsVal
deriving DecidableEq, Repr

/-- JavaScript nullish coalescing `a ?? b`. -/
def jsCoalesce (a b : JsVal) : JsVal :=
  match a with
  | .vUndefined => b
  | .vNull => b
  | _ => a

/-- JavaScript truthiness of a primitive value. -/
def truthy : JsVal → Bool
  | .vUndefined => false
  | .vNull => false
  | .vBool b => b
  | .vNum n => n != 0
  | .vStr s => !s.isEmpty

/-- JavaScript string coercion of a primitive value. -/
def jsToString : JsVal → List Char
  | .vUndefined => "undefined".data
  | .vNull => "null".data
  | .vBool b => if b then "true".data else "false".data
  | .vNum n => (toString n).data
  | .vStr s => s

/-- `resolveVideoPath(rawPath)` on an arbitrary primitive: a non-string
receiver has no `trim` method, so the call throws a `TypeError` (the leading
regex test only coerces and never matches these primitives). -/
def resolveVideoPathJs : JsVal → Except JsErr (List Char)
  | .vStr s => .ok (resolveVideoPath s)
  | _ => .error .typeError

/-- `decodeURIComponent` as the throwing JS function. -/
def jsDecodeURI (s : List Char) : Except JsErr (List Char) :=
  match percentDecode s with
  | some d => .ok d
  | none => .error .uriError

/-- Model of `createEntryFromPath` (src/script.js lines 149-153). -/
def createEntryFromPath (path : List Char) : Except JsErr (Option VideoEntry) :=
  match jsDecodeURI (nameFromPath (resolveVideoPath path)) with
  | .error e => .error e
  | .ok nm => .ok (if nm.isEmpty then none else some ⟨nm, resolveVideoPath path, none⟩)

/-- The `fileName` local of the object branch of `normalizeEntry`:
`rawEntry.name ?? rawEntry.file ?? rawEntry.title ?? ""`. -/
def objFileName (nameF fileF titleF : JsVal) : JsVal :=
  jsCoalesce nameF (jsCoalesce fileF (jsCoalesce titleF (.vStr [])))

/-- The `rawUrl` local of the object branch: `rawEntry.url ?? fileName`. -/
def objRawUrl (nameF fileF titleF urlF : JsVal) : JsVal :=
  jsCoalesce urlF (objFileName nameF fileF titleF)

/-- Model of `normalizeEntry` (src/script.js lines 123-147).  `.error e` means
the JS function throws `e`; `.ok none` that it returns `null`; `.ok (some v)`
that it returns the entry `v`. -/
def normalizeEntry : RawRecord → Except JsErr (Option VideoEntry)
  | .rStr s => createEntryFromPath s
  | .rObj nameF fileF titleF urlF posterF thumbF =>
    if truthy (objRawUrl nameF fileF titleF urlF) = false then .ok none
    else
      match resolveVideoPathJs (objRawUrl nameF fileF titleF urlF) with
      | .error e => .error e
      | .ok u =>
        match jsDecodeURI (if truthy (objFileName nameF fileF titleF) then
            jsToString (objFileName nameF fileF titleF)
          else nameFromPath u) with
        | .error e => .error e
        | .ok nm => .ok (some ⟨nm, u, some (jsCoalesce posterF (jsCoalesce thumbF .vNull))⟩)
  | _ => .ok none

/-! ### Deduplication (`dedupeEntries`, src/script.js lines 296-311) -/

/-- The filter callback of `dedupeEntries` threaded through its mutable
`seen` set (lowercased urls of entries kept so far), left to right. -/
def dedupeGo (seen : List (List Char)) : List (Option VideoEntry) → List (Option VideoEntry)
  | [] => []
  | e :: rest =>
    match e with
    | none => dedupeGo seen rest
    | some v =>
      if v.url.isEmpty then dedupeGo seen rest
      else if v.url.map lowerChar ∈ seen then dedupeGo seen rest
      else some v :: dedupeGo (v.url.map lowerChar :: seen) rest

/-- Model of `dedupeEntries`.  Elements are `Option VideoEntry` so that a
null/undefined array element is representable (`none`). -/
def dedupeEntries (entries : List (Option VideoEntry)) : List (Option VideoEntry) :=
  dedupeGo [] entries

/-- The validity test at the head of the dedupe filter: a non-null entry
with a truthy (non-empty) url. -/
def entryValid : Option VideoEntry → Bool
  | none => false
  | some v => !v.url.isEmpty

/-- Specification, taken from the claim wording: an entry has an earlier
duplicate in `prev` iff some earlier entry has a case-insensitively equal
url. -/
def hasEarlierDup (prev : List (Option VideoEntry)) : Option VideoEntry → Bool
  | none => false
  | some v =>
    prev.any (fun p =>
      match p with
      | some w => w.url.map lowerChar == v.url.map lowerChar
      | none => false)

/-- Specification, taken from the claim wording: keep exactly the entries
with no earlier case-insensitive url duplicate, preserving order. -/
def specDedupe (prev : List (Option VideoEntry)) :
    List (Option VideoEntry) → List (Option VideoEntry)
  | [] => []
  | e :: rest =>
    if hasEarlierDup prev e then specDedupe (prev ++ [e]) rest
    else e :: specDedupe (prev ++ [e]) rest

/-! ### Name ordering (the comparator of `loadVideos`, src/script.js line 32) -/

/-- ASCII digit test. -/
def isDigitChar (c : Char) : Bool := 48 ≤ c.toNat && c.toNat ≤ 57

/-- Numeric value of a digit run. -/
def digitsToNat (l : List Char) : Nat :=
  l.foldl (fun a c => 10 * a + (c.toNat - 48)) 0

theorem dropWhile_length_le (p : α → Bool) (l : List α) :
    (l.dropWhile p).length ≤ l.length := by
  induction l with
  | nil => exact Nat.le_refl _
  | cons a l ih =>
    rw [List.dropWhile_cons]
    split
    · exact Nat.le_trans ih (Nat.le_succ _)
    · exact Nat.le_refl _

/-- The chunking loop, structurally recursive on a fuel bound (always called
with fuel at least the input length). -/
def chunkFuel : Nat → List Char → List (Nat ⊕ List Char)
  | _, [] => []
  | 0, _ :: _ => []
  | fuel + 1, c :: rest =>
    if isDigitChar c then
      Sum.inl (digitsToNat (c :: rest.takeWhile isDigitChar)) ::
        chunkFuel fuel (rest.dropWhile isDigitChar)
    else
      Sum.inr ((c :: rest.takeWhile (fun x => !isDigitChar x)).map lowerChar) ::
        chunkFuel fuel (rest.dropWhile (fun x => !isDigitChar x))

/-- Splits a name into maximal runs: digit runs taken by numeric value,
other runs case-folded.  Models the numeric, base-sensitivity collation of
`localeCompare` with `numeric` set and base sensitivity. -/
def chunkify (l : List Char) : List (Nat ⊕ List Char) :=
  chunkFuel l.length l

/-- Three-way comparison of naturals. -/
def natCmp (a b : Nat) : Ordering :=
  if a < b then .lt else if b < a then .gt else .eq

/-- Three-way comparison of characters by code point. -/
def charCmp (a b : Char) : Ordering := natCmp a.toNat b.toNat

/-- Lexicographic comparison of lists under an element comparator. -/
def lexCmp (f : α → α → Ordering) : List α → List α → Ordering
  | [], [] => .eq
  | [], _ :: _ => .lt
  | _ :: _, [] => .gt
  | a :: l1, b :: l2 =>
    match f a b with
    | .eq => lexCmp f l1 l2
    | o => o

/-- Comparison of one chunk: numeric chunks by value and before textual
chunks, textual chunks lexicographically (already case-folded). -/
def chunkCmp : Nat ⊕ List Char → Nat ⊕ List Char → Ordering
  | .inl a, .inl b => natCmp a b
  | .inl _, .inr _ => .lt
  | .inr _, .inl _ => .gt
  | .inr a, .inr b => lexCmp charCmp a b

/-- The comparator of line 32: numeric-aware, case-insensitive name order. -/
def nameCmp (a b : List Char) : Ordering :=
  lexCmp chunkCmp (chunkify a) (chunkify b)

/-- The non-strict order induced by the comparator on entries. -/
def entryLE (a b : VideoEntry) : Prop := nameCmp a.name b.name ≠ .gt

instance : DecidableRel entryLE := fun a b => by
  unfold entryLE
  infer_instance

/-- The sort step of `loadVideos` (line 32): a comparator sort of the
deduplicated entries. -/
def sortEntries (l : List VideoEntry) : List VideoEntry :=
  List.insertionSort entryLE l

/-! ### Sources and the discovery pipeline -/

/-- `response.ok`: status in the 200-299 range. -/
def respOk (status : Nat) : Bool := 200 ≤ status && status ≤ 299

/-- `payload.map(normalizeEntry).filter(Boolean)`, with a throw from any
element aborting the whole map. -/
def normalizeAll : List RawRecord → Except JsErr (List VideoEntry)
  | [] => .ok []
  | r :: rest =>
    match normalizeEntry r with
    | .error e => .error e
    | .ok v =>
      match normalizeAll rest with
      | .error e => .error e
      | .ok tail => .ok (match v with | some e2 => e2 :: tail | none => tail)

/-- Shape of the parsed manifest JSON as far as `fetchManifest` inspects it:
an array, an object whose `files` property is an array (`some`) or
absent/non-array (`none`), JSON `null`, or another primitive. -/
inductive ManifestPayload where
  | arr (els : List RawRecord)
  | obj (files : Option (List RawRecord))
  | pnull
  | prim
deriving DecidableEq, Repr

/-- Model of `fetchManifest` (src/script.js lines 65-89) as a function of the
injected fetch outcome: the response status and the parsed JSON payload.
Accessing `.files` on a null payload throws a `TypeError`. -/
def fetchManifest (status : Nat) (payload : ManifestPayload) : Except JsErr (List VideoEntry) :=
  if status = 404 then .error .notFound
  else if respOk status = false then .error .fetchError
  else
    match payload with
    | .arr els => normalizeAll els
    | .obj (some files) => normalizeAll files
    | .obj none => .error .formatError
    | .prim => .error .formatError
    | .pnull => .error .typeError

/-- `href.split("?")[0]`. -/
def dropQuery (h : List Char) : List Char := h.takeWhile (fun c => c != '?')

/-- `href.replace(/^\.\/?/, "")`: removes one leading dot together with at
most one slash directly after it. -/
def stripDotSlashOnce (h : List Char) : List Char :=
  match h with
  | [] => []
  | c :: rest =>
    if c = '.' then
      match rest with
      | c2 :: rest2 => if c2 = '/' then rest2 else rest
      | [] => []
    else h

/-- `MP4_PATTERN.test(href)` for the pattern matching a `.mp4` suffix
case-insensitively. -/
def isMp4 (h : List Char) : Bool := List.isSuffixOf ".mp4".data (h.map lowerChar)

/-- The first filter of the listing scrape: drop empty values and values
starting with the parent-directory token. -/
def keepHref (h : List Char) : Bool := !h.isEmpty && !(List.isPrefixOf "../".data h)

/-- The href pipeline of `scrapeDirectoryListing` before normalization:
query dropped, `^\.\/?` stripped, empties and `../`-prefixed values dropped,
then only `.mp4` suffixes kept. -/
def candidateHrefs (hrefs : List (List Char)) : List (List Char) :=
  (((hrefs.map dropQuery).map stripDotSlashOnce).filter keepHref).filter isMp4

/-- The record built for one surviving href: an object whose `name` is the
derived base name and whose `url` is the href. -/
def hrefRecord (h : List Char) : RawRecord :=
  .rObj (.vStr (nameFromPath h)) .vUndefined .vUndefined (.vStr h) .vUndefined .vUndefined

/-- Model of `scrapeDirectoryListing` (src/script.js lines 91-121) as a
function of the injected fetch outcome: the response status and the href
attribute values extracted from the anchors (after the `|| ""` default). -/
def scrapeDirectoryListing (status : Nat) (hrefs : List (List Char)) :
    Except JsErr (List VideoEntry) :=
  if respOk status = false then .error .fetchError
  else
    match normalizeAll ((candidateHrefs hrefs).map hrefRecord) with
    | .error e => .error e
    | .ok entries => if entries.isEmpty then .error .emptyError else .ok entries

/-- Model of `discoverVideoEntries` (src/script.js lines 52-63) as a function
of the outcomes of the two source calls: the manifest result is used when it
is a non-empty list; on a manifest throw (logged and swallowed) or an empty
manifest list the directory-listing result is returned as is. -/
def discoverVideoEntries (manifestResult dirResult : Except JsErr (List VideoEntry)) :
    Except JsErr (List VideoEntry) :=
  match manifestResult with
  | .ok [] => dirResult
  | .ok (e :: rest) => .ok (e :: rest)
  | .error _ => dirResult

/-- The dedupe-then-sort tail of `loadVideos` (lines 22-32) applied to a
discovered list. -/
def processEntries (discovered : List (Option VideoEntry)) : List VideoEntry :=
  sortEntries ((dedupeEntries discovered).filterMap id)

theorem hexVal_hexDigit (m : Nat) (h : m < 16) : hexVal (hexDigit m) = some m := by
  interval_cases m <;> decide

theorem pd_nil : percentDecode [] = some [] := rfl

theorem pd_cons_ne (c : Char) (hc : c ≠ '%') (t : List Char) :
    percentDecode (c :: t) = (percentDecode t).map (fun l => c :: l) := by
  rw [percentDecode, List.length_cons, pdFuel, if_neg hc]
  rfl

theorem pd_percent_some (t : List Char) (ch : Char) (r3 : List Char)
    (h : pdStep t = some (ch, r3)) :
    percentDecode ('%' :: t) = (percentDecode r3).map (fun l => ch :: l) := by
  rw [percentDecode, List.length_cons, pdFuel, if_pos rfl, h]
  have hle := pdStep_tail_le t ch r3 h
  dsimp only
  rw [pdFuel_irrel t.length r3.length r3 hle (Nat.le_refl _)]
  rfl

theorem pd_percent_none (t : List Char) (h : pdStep t = none) :
    percentDecode ('%' :: t) = none := by
  rw [percentDecode, List.length_cons, pdFuel, if_pos rfl, h]

theorem contByte_escape (v : Nat) (h1 : 128 ≤ v) (h2 : v < 192) :
    contByte '%' (hexDigit (v / 16)) (hexDigit (v % 16)) = some v := by
  have e1 := hexVal_hexDigit (v / 16) (by omega)
  have e2 := hexVal_hexDigit (v % 16) (by omega)
  rw [contByte, if_pos rfl, e1, e2]
  dsimp only
  rw [if_pos (by omega)]
  congr 1
  omega


theorem decodeSeq_enc1 (n : Nat) (h : n < 128) (r2 : List Char) :
    decodeSeq (hexDigit (n / 16)) (hexDigit (n % 16)) r2 = some (Char.ofNat n, r2) := by
  have e1 := hexVal_hexDigit (n / 16) (by omega)
  have e2 := hexVal_hexDigit (n % 16) (by omega)
  rw [decodeSeq, e1, e2]
  dsimp only
  rw [if_pos (by omega)]
  have hx : 16 * (n / 16) + n % 16 = n := by omega
  rw [hx]

theorem decodeSeq_enc2 (n : Nat) (ha : 128 ≤ n) (hb : n < 2048) (t : List Char) :
    decodeSeq (hexDigit ((192 + n / 64) / 16)) (hexDigit ((192 + n / 64) % 16))
      ('%' :: hexDigit ((128 + n % 64) / 16) :: hexDigit ((128 + n % 64) % 16) :: t) =
      some (Char.ofNat n, t) := by
  have e1 := hexVal_hexDigit ((192 + n / 64) / 16) (by omega)
  have e2 := hexVal_hexDigit ((192 + n / 64) % 16) (by omega)
  have hc := contByte_escape (128 + n % 64) (by omega) (by omega)
  rw [decodeSeq, e1, e2]
  dsimp only
  rw [if_neg (by omega), if_neg (by omega), if_pos (by omega)]
  rw [hc]
  dsimp only
  have hx : (16 * ((192 + n / 64) / 16) + (192 + n / 64) % 16 - 192) * 64 +
      (128 + n % 64 - 128) = n := by omega
  rw [hx]


theorem decodeSeq_enc3 (n : Nat) (ha : 2048 ≤ n) (hb : n < 65536)
    (hs : n < 55296 ∨ 57343 < n) (t : List Char) :
    decodeSeq (hexDigit ((224 + n / 4096) / 16)) (hexDigit ((224 + n / 4096) % 16))
      ('%' :: hexDigit ((128 + n / 64 % 64) / 16) :: hexDigit ((128 + n / 64 % 64) % 16) ::
       '%' :: hexDigit ((128 + n % 64) / 16) :: hexDigit ((128 + n % 64) % 16) :: t) =
      some (Char.ofNat n, t) := by
  have e1 := hexVal_hexDigit ((224 + n / 4096) / 16) (by omega)
  have e2 := hexVal_hexDigit ((224 + n / 4096) % 16) (by omega)
  have hc1 := contByte_escape (128 + n / 64 % 64) (by omega) (by omega)
  have hc2 := contByte_escape (128 + n % 64) (by omega) (by omega)
  rw [decodeSeq, e1, e2]
  dsimp only
  rw [if_neg (by omega), if_neg (by omega), if_neg (by omega), if_pos (by omega)]
  rw [hc1, hc2]
  dsimp only
  rw [if_pos (by omega)]
  have hx : (16 * ((224 + n / 4096) / 16) + (224 + n / 4096) % 16 - 224) * 4096 +
      (128 + n / 64 % 64 - 128) * 64 + (128 + n % 64 - 128) = n := by omega
  rw [hx]

theorem decodeSeq_enc4 (n : Nat) (ha : 65536 ≤ n) (hb : n < 1114112) (t : List Char) :
    decodeSeq (hexDigit ((240 + n / 262144) / 16)) (hexDigit ((240 + n / 262144) % 16))
      ('%' :: hexDigit ((128 + n / 4096 % 64) / 16) :: hexDigit ((128 + n / 4096 % 64) % 16) ::
       '%' :: hexDigit ((128 + n / 64 % 64) / 16) :: hexDigit ((128 + n / 64 % 64) % 16) ::
       '%' :: hexDigit ((128 + n % 64) / 16) :: hexDigit ((128 + n % 64) % 16) :: t) =
      some (Char.ofNat n, t) := by
  have e1 := hexVal_hexDigit ((240 + n / 262144) / 16) (by omega)
  have e2 := hexVal_hexDigit ((240 + n / 262144) % 16) (by omega)
  have hc1 := contByte_escape (128 + n / 4096 % 64) (by omega) (by omega)
  have hc2 := contByte_escape (128 + n / 64 % 64) (by omega) (by omega)
  have hc3 := contByte_escape (128 + n % 64) (by omega) (by omega)
  rw [decodeSeq, e1, e2]
  dsimp only
  rw [if_neg (by omega), if_neg (by omega), if_neg (by omega), if_neg (by omega)]
  rw [hc1, hc2, hc3]
  dsimp only
  rw [if_pos (by omega)]
  have hx : (16 * ((240 + n / 262144) / 16) + (240 + n / 262144) % 16 - 240) * 262144 +
      (128 + n / 4096 % 64 - 128) * 4096 + (128 + n / 64 % 64 - 128) * 64 +
      (128 + n % 64 - 128) = n := by omega
  rw [hx]

theorem char_valid_cases (c : Char) :
    c.toNat < 55296 ∨ (57343 < c.toNat ∧ c.toNat < 1114112) := c.valid

theorem pd_encodeChar (c : Char) (t : List Char) :
    percentDecode (percentEncodeChar c ++ t) = (percentDecode t).map (fun l => c :: l) := by
  by_cases hu : isUnreserved c
  · rw [percentEncodeChar, if_pos hu]
    have hc : c ≠ '%' := by
      intro he
      rw [he] at hu
      exact absurd hu (by decide)
    rw [List.cons_append, List.nil_append]
    exact pd_cons_ne c hc t
  · rw [percentEncodeChar, if_neg hu]
    have hv := char_valid_cases c
    rcases Nat.lt_or_ge c.toNat 128 with h1 | h1
    · rw [utf8Bytes, if_pos h1]
      simp only [List.flatMap_cons, List.flatMap_nil, escapeByte, List.cons_append,
        List.nil_append, List.append_nil]
      rw [pd_percent_some _ _ _ (by rw [pdStep]; exact decodeSeq_enc1 c.toNat h1 t)]
      rw [Char.ofNat_toNat]
    · rcases Nat.lt_or_ge c.toNat 2048 with h2 | h2
      · rw [utf8Bytes, if_neg (by omega), if_pos h2]
        simp only [List.flatMap_cons, List.flatMap_nil, escapeByte, List.cons_append,
          List.nil_append, List.append_nil]
        rw [pd_percent_some _ _ _ (by rw [pdStep]; exact decodeSeq_enc2 c.toNat h1 h2 t)]
        rw [Char.ofNat_toNat]
      · rcases Nat.lt_or_ge c.toNat 65536 with h3 | h3
        · rw [utf8Bytes, if_neg (by omega), if_neg (by omega), if_pos h3]
          simp only [List.flatMap_cons, List.flatMap_nil, escapeByte, List.cons_append,
            List.nil_append, List.append_nil]
          rw [pd_percent_some _ _ _ (by
            rw [pdStep]
            exact decodeSeq_enc3 c.toNat h2 h3 (by omega) t)]
          rw [Char.ofNat_toNat]
        · rw [utf8Bytes, if_neg (by omega), if_neg (by omega), if_neg (by omega)]
          simp only [List.flatMap_cons, List.flatMap_nil, escapeByte, List.cons_append,
            List.nil_append, List.append_nil]
          rw [pd_percent_some _ _ _ (by
            rw [pdStep]
            exact decodeSeq_enc4 c.toNat h3 (by omega) t)]
          rw [Char.ofNat_toNat]

theorem pd_encode (l : List Char) : percentDecode (encodeURIComponent l) = some l := by
  induction l with
  | nil => exact pd_nil
  | cons c l ih =>
    have : encodeURIComponent (c :: l) = percentEncodeChar c ++ encodeURIComponent l := by
      rw [encodeURIComponent, List.flatMap_cons]
      rfl
    rw [this, pd_encodeChar, ih]
    rfl


/-! ### Helper lemmas: encoder output character classes -/

theorem encChar_ranges (c : Char) (l : List Char) (h : c ∈ encodeURIComponent l) :
    (48 ≤ c.toNat ∧ c.toNat ≤ 57) ∨ (65 ≤ c.toNat ∧ c.toNat ≤ 90) ∨
    (97 ≤ c.toNat ∧ c.toNat ≤ 122) ∨ c.toNat = 45 ∨ c.toNat = 95 ∨ c.toNat = 46 ∨
    c.toNat = 33 ∨ c.toNat = 126 ∨ c.toNat = 42 ∨ c.toNat = 39 ∨ c.toNat = 40 ∨
    c.toNat = 41 ∨ c.toNat = 37 := by
  rw [encodeURIComponent, List.mem_flatMap] at h
  obtain ⟨a, _, hmem⟩ := h
  rw [percentEncodeChar] at hmem
  split at hmem
  · rename_i hu
    rw [List.mem_singleton] at hmem
    subst hmem
    rw [isUnreserved] at hu
    simp only [Bool.or_eq_true, Bool.and_eq_true, decide_eq_true_eq, beq_iff_eq] at hu
    omega
  · rw [List.mem_flatMap] at hmem
    obtain ⟨b, hb, hcb⟩ := hmem
    have hblt : b < 256 := by
      have hv := char_valid_cases a
      rw [utf8Bytes] at hb
      split at hb
      · rw [List.mem_singleton] at hb
        omega
      · split at hb
        · simp only [List.mem_cons, List.not_mem_nil, or_false] at hb
          rcases hb with hb | hb <;> omega
        · split at hb
          · simp only [List.mem_cons, List.not_mem_nil, or_false] at hb
            rcases hb with hb | hb | hb <;> omega
          · simp only [List.mem_cons, List.not_mem_nil, or_false] at hb
            rcases hb with hb | hb | hb | hb <;> omega
    rw [escapeByte] at hcb
    simp only [List.mem_cons, List.not_mem_nil, or_false] at hcb
    have hdig : ∀ m : Nat, m < 16 →
        (48 ≤ (hexDigit m).toNat ∧ (hexDigit m).toNat ≤ 57) ∨
        (65 ≤ (hexDigit m).toNat ∧ (hexDigit m).toNat ≤ 70) := by
      intro m hm
      interval_cases m <;> simp [hexDigit]
    rcases hcb with hc | hc | hc
    · subst hc
      decide
    · subst hc
      rcases hdig (b / 16) (by omega) with h | h <;> omega
    · subst hc
      rcases hdig (b % 16) (by omega) with h | h <;> omega

theorem encChar_not_ws (c : Char) (l : List Char) (h : c ∈ encodeURIComponent l) :
    isJsWs c = false := by
  have := encChar_ranges c l h
  rw [isJsWs]
  simp only [Bool.or_eq_false_iff, Bool.and_eq_false_iff, beq_eq_false_iff_ne, ne_eq,
    decide_eq_false_iff_not]
  omega

theorem encChar_ne_slash (c : Char) (l : List Char) (h : c ∈ encodeURIComponent l) :
    c ≠ '/' := by
  have := encChar_ranges c l h
  intro he
  subst he
  revert this
  decide

theorem encChar_ne_query (c : Char) (l : List Char) (h : c ∈ encodeURIComponent l) :
    c ≠ '?' := by
  have := encChar_ranges c l h
  intro he
  subst he
  revert this
  decide


/-! ### Helper lemmas: split, join, trim, strip -/

theorem splitOnSlash_ne_nil (l : List Char) : splitOnSlash l ≠ [] := by
  match l with
  | [] => simp [splitOnSlash]
  | c :: rest =>
    rw [splitOnSlash]
    split
    · simp
    · split <;> simp

theorem splitOnSlash_sep (p l : List Char) (hp : ∀ c ∈ p, c ≠ '/') :
    splitOnSlash (p ++ '/' :: l) = p :: splitOnSlash l := by
  induction p with
  | nil =>
    rw [List.nil_append, splitOnSlash, if_pos rfl]
  | cons c p ih =>
    rw [List.cons_append, splitOnSlash,
      if_neg (hp c (List.mem_cons_self c p)),
      ih (fun x hx => hp x (List.mem_cons_of_mem c hx))]

theorem splitOnSlash_nosep (p : List Char) (hp : ∀ c ∈ p, c ≠ '/') :
    splitOnSlash p = [p] := by
  induction p with
  | nil => rfl
  | cons c p ih =>
    rw [splitOnSlash, if_neg (hp c (List.mem_cons_self c p)),
      ih (fun x hx => hp x (List.mem_cons_of_mem c hx))]

theorem joinSlash_cons_ne (s : List Char) (l : List (List Char)) (h : l ≠ []) :
    joinSlash (s :: l) = s ++ '/' :: joinSlash l := by
  match l with
  | [] => exact absurd rfl h
  | t :: ts =>
    rw [joinSlash]
    simp

theorem splitJoin (parts : List (List Char)) (hne : parts ≠ [])
    (hfree : ∀ p ∈ parts, ∀ c ∈ p, c ≠ '/') :
    splitOnSlash (joinSlash parts) = parts := by
  induction parts with
  | nil => exact absurd rfl hne
  | cons p ps ih =>
    match ps with
    | [] =>
      rw [joinSlash]
      exact splitOnSlash_nosep p (hfree p (List.mem_cons_self p []))
    | q :: qs =>
      rw [joinSlash_cons_ne p (q :: qs) (by simp)]
      rw [splitOnSlash_sep p (joinSlash (q :: qs)) (hfree p (List.mem_cons_self p _))]
      rw [ih (by simp) (fun r hr c hc => hfree r (List.mem_cons_of_mem p hr) c hc)]

theorem mem_joinSlash (c : Char) (parts : List (List Char)) (h : c ∈ joinSlash parts) :
    c = '/' ∨ ∃ p ∈ parts, c ∈ p := by
  induction parts with
  | nil => cases h
  | cons p ps ih =>
    match ps with
    | [] =>
      right
      exact ⟨p, List.mem_cons_self p [], h⟩
    | q :: qs =>
      rw [joinSlash_cons_ne p (q :: qs) (by simp)] at h
      rw [List.mem_append] at h
      rcases h with h | h
      · right
        exact ⟨p, List.mem_cons_self p _, h⟩
      · rw [List.mem_cons] at h
        rcases h with h | h
        · left
          exact h
        · rcases ih h with h2 | ⟨r, hr, hc⟩
          · left
            exact h2
          · right
            exact ⟨r, List.mem_cons_of_mem p hr, hc⟩

theorem dropWhile_noop (p : α → Bool) (l : List α) (h : ∀ c ∈ l, p c = false) :
    l.dropWhile p = l := by
  match l with
  | [] => rfl
  | c :: rest => rw [List.dropWhile_cons_of_neg (by rw [h c (List.mem_cons_self c rest)]; simp)]

theorem takeWhile_noop (p : α → Bool) (l : List α) (h : ∀ c ∈ l, p c = true) :
    l.takeWhile p = l := by
  induction l with
  | nil => rfl
  | cons c rest ih =>
    rw [List.takeWhile_cons_of_pos (h c (List.mem_cons_self c rest)),
      ih (fun x hx => h x (List.mem_cons_of_mem c hx))]

theorem trimJs_noop (l : List Char) (h : ∀ c ∈ l, isJsWs c = false) :
    trimJs l = l := by
  rw [trimJs, dropWhile_noop _ _ h,
    dropWhile_noop _ _ (fun c hc => h c (List.mem_reverse.mp hc)), List.reverse_reverse]

theorem stripDot_noop (c : Char) (l : List Char) (h1 : c ≠ '.') (h2 : isPathSep c = false) :
    stripDotSlashes (c :: l) = c :: l := by
  rw [stripDotSlashes.eq_def]
  dsimp only
  rw [if_neg h1, if_neg (by rw [h2]; simp)]

theorem isPrefixOf_append_self (p t : List Char) : List.isPrefixOf p (p ++ t) = true := by
  induction p with
  | nil => simp [List.isPrefixOf]
  | cons c p ih =>
    rw [List.cons_append, List.isPrefixOf_cons₂_self]
    exact ih

theorem isPrefixOf_ex (p l : List Char) (h : List.isPrefixOf p l = true) :
    ∃ t, l = p ++ t := by
  induction p generalizing l with
  | nil => exact ⟨l, rfl⟩
  | cons c p ih =>
    match l with
    | [] => cases h
    | d :: l2 =>
      rw [List.isPrefixOf_cons₂] at h
      rw [Bool.and_eq_true, beq_iff_eq] at h
      obtain ⟨rfl, h2⟩ := h
      obtain ⟨t, rfl⟩ := ih l2 h2
      exact ⟨t, rfl⟩


/-! ### Structure of resolved paths -/

theorem encodeSegment_enc (seg : List Char) : ∃ d, encodeSegment seg = encodeURIComponent d := by
  cases h : percentDecode seg with
  | some d =>
    rw [encodeSegment, h]
    exact ⟨d, rfl⟩
  | none =>
    rw [encodeSegment, h]
    exact ⟨seg, rfl⟩

theorem encodeSegment_of_enc (d : List Char) :
    encodeSegment (encodeURIComponent d) = encodeURIComponent d := by
  rw [encodeSegment, pd_encode]

theorem matchesHttpScheme_v (l : List Char) : matchesHttpScheme ('v' :: l) = false := by
  rw [matchesHttpScheme, List.map_cons]
  have hv : lowerChar 'v' = 'v' := by decide
  rw [hv]
  rfl

theorem resolveVideoPath_structure (s : List Char) (h : matchesHttpScheme s = false) :
    ∃ parts, parts ≠ [] ∧ (∀ p ∈ parts, ∃ d, p = encodeURIComponent d) ∧
      resolveVideoPath s = "videos/".data ++ joinSlash parts := by
  have hrel : ∃ t, relativePath s = videosDirectory ++ t := by
    rw [relativePath]
    by_cases hp : List.isPrefixOf videosDirectory (sanitizedPath s) = true
    · rw [if_pos hp]
      exact isPrefixOf_ex _ _ hp
    · rw [if_neg hp]
      exact ⟨sanitizedPath s, rfl⟩
  obtain ⟨t, ht⟩ := hrel
  refine ⟨(splitOnSlash t).map encodeSegment, ?_, ?_, ?_⟩
  · intro hnil
    rw [List.map_eq_nil_iff] at hnil
    exact splitOnSlash_ne_nil t hnil
  · intro p hp
    rw [List.mem_map] at hp
    obtain ⟨x, _, rfl⟩ := hp
    exact encodeSegment_enc x
  · rw [resolveVideoPath, if_neg (by rw [h]; simp), ht]
    have hvd : videosDirectory ++ t = "videos".data ++ '/' :: t := rfl
    rw [hvd, splitOnSlash_sep _ _ (by decide), encodeSegments]
    rw [joinSlash_cons_ne _ _ (by
      intro hnil
      rw [List.map_eq_nil_iff] at hnil
      exact splitOnSlash_ne_nil t hnil)]
    rfl

theorem splitOnSlash_base (parts : List (List Char)) (hne : parts ≠ [])
    (hfree : ∀ p ∈ parts, ∀ c ∈ p, c ≠ '/') :
    splitOnSlash ("videos/".data ++ joinSlash parts) = "videos".data :: parts := by
  have hvd : "videos/".data ++ joinSlash parts = "videos".data ++ '/' :: joinSlash parts := rfl
  rw [hvd, splitOnSlash_sep _ _ (by decide), splitJoin parts hne hfree]

theorem resolveVideoPath_resolved (parts : List (List Char)) (hne : parts ≠ [])
    (henc : ∀ p ∈ parts, ∃ d, p = encodeURIComponent d) :
    resolveVideoPath ("videos/".data ++ joinSlash parts) = "videos/".data ++ joinSlash parts := by
  have hfree : ∀ p ∈ parts, ∀ c ∈ p, c ≠ '/' := by
    intro p hp c hc
    obtain ⟨d, rfl⟩ := henc p hp
    exact encChar_ne_slash c d hc
  have hnotws : ∀ c ∈ "videos/".data ++ joinSlash parts, isJsWs c = false := by
    intro c hc
    rw [List.mem_append] at hc
    rcases hc with hc | hc
    · have hfin : ∀ c ∈ "videos/".data, isJsWs c = false := by decide
      exact hfin c hc
    · rcases mem_joinSlash c parts hc with rfl | ⟨p, hp, hcp⟩
      · decide
      · obtain ⟨d, rfl⟩ := henc p hp
        exact encChar_not_ws c d hcp
  have hhead : "videos/".data ++ joinSlash parts = 'v' :: ("ideos/".data ++ joinSlash parts) := rfl
  rw [resolveVideoPath, if_neg (by rw [hhead, matchesHttpScheme_v]; simp)]
  have hsan : sanitizedPath ("videos/".data ++ joinSlash parts) =
      "videos/".data ++ joinSlash parts := by
    rw [sanitizedPath, trimJs_noop _ hnotws, hhead,
      stripDot_noop 'v' _ (by decide) (by decide)]
  have hrelp : relativePath ("videos/".data ++ joinSlash parts) =
      "videos/".data ++ joinSlash parts := by
    rw [relativePath, hsan]
    unfold videosDirectory
    rw [if_pos (isPrefixOf_append_self _ _)]
  rw [hrelp]
  rw [splitOnSlash_base parts hne hfree, encodeSegments]
  have hmap : parts.map encodeSegment = parts := by
    have hid : ∀ p ∈ parts, encodeSegment p = p := by
      intro p hp
      obtain ⟨d, rfl⟩ := henc p hp
      exact encodeSegment_of_enc d
    rw [List.map_congr_left hid]
    simp
  rw [hmap, joinSlash_cons_ne _ _ hne]
  rfl


theorem getLastD_mem (l : List α) (d : α) (h : l ≠ []) : l.getLastD d ∈ l := by
  induction l generalizing d with
  | nil => exact absurd rfl h
  | cons a l2 ih =>
    rw [List.getLastD_cons]
    match l2 with
    | [] => exact List.mem_singleton.mpr rfl
    | b :: bs => exact List.mem_cons_of_mem a (ih a (by simp))

theorem hfree_of_henc (parts : List (List Char))
    (henc : ∀ p ∈ parts, ∃ d, p = encodeURIComponent d) :
    ∀ p ∈ parts, ∀ c ∈ p, c ≠ '/' := by
  intro p hp c hc
  obtain ⟨d, rfl⟩ := henc p hp
  exact encChar_ne_slash c d hc

theorem nameFromPath_resolved_decodes (s : List Char) (h : matchesHttpScheme s = false) :
    ∃ nm, percentDecode (nameFromPath (resolveVideoPath s)) = some nm := by
  obtain ⟨parts, hne, henc, heq⟩ := resolveVideoPath_structure s h
  rw [heq, nameFromPath]
  have hq : ∀ c ∈ "videos/".data ++ joinSlash parts, (c != '?') = true := by
    intro c hc
    rw [bne_iff_ne]
    rw [List.mem_append] at hc
    rcases hc with hc | hc
    · have hfin : ∀ c ∈ "videos/".data, c ≠ '?' := by decide
      exact hfin c hc
    · rcases mem_joinSlash c parts hc with rfl | ⟨p, hp, hcp⟩
      · decide
      · obtain ⟨d, rfl⟩ := henc p hp
        exact encChar_ne_query c d hcp
  rw [takeWhile_noop _ _ hq, splitOnSlash_base parts hne (hfree_of_henc parts henc),
    List.getLastD_cons]
  obtain ⟨d, hd⟩ := henc _ (getLastD_mem parts "videos".data hne)
  rw [hd, pd_encode]
  exact ⟨d, rfl⟩

theorem bool_ne_true (b : Bool) (h : ¬b = true) : b = false := by
  cases b
  · rfl
  · exact absurd rfl h

theorem resolveVideoPath_wellformed (s : List Char) :
    matchesHttpScheme (resolveVideoPath s) = true ∨
    List.isPrefixOf "videos/".data (resolveVideoPath s) = true := by
  by_cases h : matchesHttpScheme s = true
  · left
    rw [resolveVideoPath, if_pos h]
    exact h
  · right
    obtain ⟨parts, _, _, heq⟩ := resolveVideoPath_structure s (bool_ne_true _ h)
    rw [heq]
    exact isPrefixOf_append_self _ _

/-- Claim C2: path resolution is idempotent: for every string `x`,
`resolveVideoPath(resolveVideoPath(x))` equals `resolveVideoPath(x)` across
the absolute-URL branch, base-directory prefixing, and the per-segment
decode-then-encode with its raw-encode fallback. -/
theorem c2_resolveVideoPath_idempotent (x : List Char) :
    resolveVideoPath (resolveVideoPath x) = resolveVideoPath x := by
  by_cases h : matchesHttpScheme x = true
  · have hx : resolveVideoPath x = x := by rw [resolveVideoPath, if_pos h]
    rw [hx]
    exact hx
  · obtain ⟨parts, hne, henc, heq⟩ := resolveVideoPath_structure x (bool_ne_true _ h)
    rw [heq]
    exact resolveVideoPath_resolved parts hne henc


/-! ### Inversion lemmas for the normalizer -/

theorem jsDecodeURI_ok (x nm : List Char) (h : jsDecodeURI x = .ok nm) :
    percentDecode x = some nm := by
  rw [jsDecodeURI] at h
  cases hp : percentDecode x with
  | some d =>
    rw [hp] at h
    cases h
    rfl
  | none =>
    rw [hp] at h
    cases h

theorem normalizeEntry_str_inv (s : List Char) (v : VideoEntry)
    (h : normalizeEntry (.rStr s) = .ok (some v)) :
    ∃ nm, percentDecode (nameFromPath (resolveVideoPath s)) = some nm ∧ nm ≠ [] ∧
      v = ⟨nm, resolveVideoPath s, none⟩ := by
  have h2 : createEntryFromPath s = .ok (some v) := h
  rw [createEntryFromPath] at h2
  cases hd : jsDecodeURI (nameFromPath (resolveVideoPath s)) with
  | error e =>
    rw [hd] at h2
    cases h2
  | ok nm =>
    rw [hd] at h2
    dsimp only at h2
    rw [Except.ok.injEq] at h2
    split at h2
    · cases h2
    · rename_i hne
      rw [Option.some.injEq] at h2
      refine ⟨nm, jsDecodeURI_ok _ _ hd, ?_, h2.symm⟩
      intro hnil
      subst hnil
      exact hne rfl

theorem normalizeEntry_obj_inv (nameF fileF titleF urlF posterF thumbF : JsVal)
    (v : VideoEntry)
    (h : normalizeEntry (.rObj nameF fileF titleF urlF posterF thumbF) = .ok (some v)) :
    ∃ sUrl nm, objRawUrl nameF fileF titleF urlF = .vStr sUrl ∧
      v = ⟨nm, resolveVideoPath sUrl, some (jsCoalesce posterF (jsCoalesce thumbF .vNull))⟩ := by
  rw [normalizeEntry] at h
  split at h
  · cases h
  · cases hru : objRawUrl nameF fileF titleF urlF with
    | vStr sUrl =>
      rw [hru] at h
      dsimp only [resolveVideoPathJs] at h
      cases hd : jsDecodeURI (if truthy (objFileName nameF fileF titleF) then
          jsToString (objFileName nameF fileF titleF)
        else nameFromPath (resolveVideoPath sUrl)) with
      | error e =>
        rw [hd] at h
        cases h
      | ok nm =>
        rw [hd] at h
        dsimp only at h
        rw [Except.ok.injEq, Option.some.injEq] at h
        exact ⟨sUrl, nm, rfl, h.symm⟩
    | vUndefined =>
      rw [hru] at h
      cases h
    | vNull =>
      rw [hru] at h
      cases h
    | vBool b =>
      rw [hru] at h
      cases h
    | vNum n =>
      rw [hru] at h
      cases h

theorem normalizeEntry_other_none :
    (∀ n : Int, normalizeEntry (.rNum n) = .ok none) ∧
    (∀ b : Bool, normalizeEntry (.rBool b) = .ok none) ∧
    normalizeEntry .rNull = .ok none ∧ normalizeEntry .rUndefined = .ok none :=
  ⟨fun _ => rfl, fun _ => rfl, rfl, rfl⟩

/-! ### Claim C1 -/

/-- Claim C1: the discovery fallback protocol: when the manifest load throws
or the normalized manifest list is empty, the directory-listing result is
used; a manifest-stage error never propagates; and an error of the
directory-listing source is the only error that propagates as the overall
discovery failure. -/
theorem c1_discovery_fallback (m d : Except JsErr (List VideoEntry)) :
    (∀ e, m = .error e → discoverVideoEntries m d = d) ∧
    (m = .ok [] → discoverVideoEntries m d = d) ∧
    (∀ e, discoverVideoEntries m d = .error e → d = .error e) ∧
    (∀ l, l ≠ [] → m = .ok l → discoverVideoEntries m d = .ok l) := by
  refine ⟨?_, ?_, ?_, ?_⟩
  · intro e he
    subst he
    rfl
  · intro he
    subst he
    rfl
  · intro e he
    match m with
    | .ok [] => exact he
    | .ok (x :: xs) =>
      dsimp only [discoverVideoEntries] at he
      cases he
    | .error e2 => exact he
  · intro l hl hm
    subst hm
    match l, hl with
    | x :: xs, _ => rfl

/-- Witness for C1 at concrete inputs: a manifest not-found error falls back
to the directory result, and so does an empty manifest list. -/
theorem c1_witness :
    discoverVideoEntries (.error .notFound) (.ok []) = .ok [] ∧
    discoverVideoEntries (.ok []) (.error .emptyError) = .error .emptyError :=
  ⟨(c1_discovery_fallback (.error .notFound) (.ok [])).1 .notFound rfl,
   (c1_discovery_fallback (.ok []) (.error .emptyError)).2.1 rfl⟩

/-! ### Claim C3 -/

/-- Claim C3 counterexample: `normalizeEntry` is not total: on an object
record whose `name` field is the number 42 (and no other fields), the derived
raw URL is the number 42, `resolveVideoPath` calls `.trim()` on it, and a
`TypeError` propagates out of `normalizeEntry`. -/
theorem c3_counterexample :
    ¬ ∃ v, normalizeEntry (.rObj (.vNum 42) .vUndefined .vUndefined .vUndefined .vUndefined .vUndefined) =
      .ok v := by
  rintro ⟨v, hv⟩
  rw [show normalizeEntry (.rObj (.vNum 42) .vUndefined .vUndefined .vUndefined .vUndefined .vUndefined) =
    .error .typeError from by decide] at hv
  cases hv

/-- Claim C3 amended: `normalizeEntry` returns without throwing on every
input that is not a string and not an object (null, numbers, booleans,
undefined all map to `null`), and on every string input that does not match
the absolute-URL pattern; object inputs whose derived raw URL is truthy but
not a string throw a `TypeError`, and a malformed percent-escape in the
derived display name throws a `URIError`. -/
theorem c3_normalizeEntry_amended :
    ((∀ n : Int, normalizeEntry (.rNum n) = .ok none) ∧
     (∀ b : Bool, normalizeEntry (.rBool b) = .ok none) ∧
     normalizeEntry .rNull = .ok none ∧ normalizeEntry .rUndefined = .ok none) ∧
    (∀ s, matchesHttpScheme s = false → ∃ v, normalizeEntry (.rStr s) = .ok v) := by
  refine ⟨normalizeEntry_other_none, ?_⟩
  intro s hs
  obtain ⟨nm, hnm⟩ := nameFromPath_resolved_decodes s hs
  refine ⟨if nm.isEmpty then none else some ⟨nm, resolveVideoPath s, none⟩, ?_⟩
  show createEntryFromPath s = _
  rw [createEntryFromPath, jsDecodeURI, hnm]

/-- Witness for C3 amended at a concrete relative path. -/
theorem c3_witness :
    matchesHttpScheme "clip.mp4".data = false ∧
    (∃ v, normalizeEntry (.rStr "clip.mp4".data) = .ok v) :=
  ⟨by decide, c3_normalizeEntry_amended.2 "clip.mp4".data (by decide)⟩

/-! ### Claim C4 -/

/-- Claim C4 counterexample: the non-null results of `normalizeEntry` do not
satisfy the claimed postcondition: an object record with url `a/` yields an
entry whose name is empty, and the bare string `my-clip.mp4` yields the name
`my-clip.mp4` — extension kept and dash kept — not `my clip`. -/
theorem c4_counterexample :
    (¬ ∀ v, normalizeEntry (.rObj .vUndefined .vUndefined .vUndefined (.vStr "a/".data) .vUndefined .vUndefined) =
        .ok (some v) → v.name ≠ []) ∧
    (¬ ∀ v, normalizeEntry (.rStr "my-clip.mp4".data) = .ok (some v) →
        v.name = "my clip".data) := by
  constructor
  · intro hall
    exact hall ⟨[], "videos/a/".data, some .vNull⟩ (by decide) rfl
  · intro hall
    exact absurd (hall ⟨"my-clip.mp4".data, "videos/my-clip.mp4".data, none⟩ (by decide))
      (by decide)

/-- Claim C4 amended: every non-null result of `normalizeEntry` has a
well-formed url (an absolute HTTP(S) URL or a path prefixed with the videos
base directory); for bare-string inputs the name is additionally non-empty
and is exactly the percent-decoded final path segment of the url, extension
included (the extension stripping and dash/underscore replacement happen at
render time, not here); object inputs may yield an empty name. -/
theorem c4_normalizeEntry_postcondition (r : RawRecord) (v : VideoEntry)
    (h : normalizeEntry r = .ok (some v)) :
    (matchesHttpScheme v.url = true ∨ List.isPrefixOf "videos/".data v.url = true) ∧
    (∀ s, r = .rStr s → v.name ≠ [] ∧ percentDecode (nameFromPath v.url) = some v.name) := by
  match r with
  | .rStr s =>
    obtain ⟨nm, hdec, hne, rfl⟩ := normalizeEntry_str_inv s v h
    refine ⟨resolveVideoPath_wellformed s, ?_⟩
    intro s2 hs2
    cases hs2
    exact ⟨hne, hdec⟩
  | .rObj nameF fileF titleF urlF posterF thumbF =>
    obtain ⟨sUrl, nm, _, rfl⟩ := normalizeEntry_obj_inv nameF fileF titleF urlF posterF thumbF v h
    refine ⟨resolveVideoPath_wellformed sUrl, ?_⟩
    intro s2 hs2
    cases hs2
  | .rNull => cases h
  | .rUndefined => cases h
  | .rNum n => cases h
  | .rBool b => cases h

/-- Witness for C4 amended at the concrete record `clip.mp4`. -/
theorem c4_witness :
    (matchesHttpScheme "videos/clip.mp4".data = true ∨
     List.isPrefixOf "videos/".data "videos/clip.mp4".data = true) ∧
    (∀ s, RawRecord.rStr "clip.mp4".data = .rStr s →
      "clip.mp4".data ≠ ([] : List Char) ∧
      percentDecode (nameFromPath "videos/clip.mp4".data) = some "clip.mp4".data) :=
  c4_normalizeEntry_postcondition (.rStr "clip.mp4".data)
    ⟨"clip.mp4".data, "videos/clip.mp4".data, none⟩ (by decide)

/-! ### Claim C10 -/

/-- Claim C10: an entry normalized from a bare-string record carries no
poster field at all, whereas an entry normalized from an object record always
has a poster field equal to `poster ?? thumbnail ?? null` — the two input
shapes produce structurally different entries. -/
theorem c10_poster_shape :
    (∀ s v, normalizeEntry (.rStr s) = .ok (some v) → v.poster = none) ∧
    (∀ nameF fileF titleF urlF posterF thumbF v,
      normalizeEntry (.rObj nameF fileF titleF urlF posterF thumbF) = .ok (some v) →
      v.poster = some (jsCoalesce posterF (jsCoalesce thumbF .vNull))) := by
  constructor
  · intro s v h
    obtain ⟨nm, _, _, rfl⟩ := normalizeEntry_str_inv s v h
    rfl
  · intro nameF fileF titleF urlF posterF thumbF v h
    obtain ⟨sUrl, nm, _, rfl⟩ := normalizeEntry_obj_inv nameF fileF titleF urlF posterF thumbF v h
    rfl

/-- Witness for C10 at concrete records of both shapes. -/
theorem c10_witness :
    (⟨"clip.mp4".data, "videos/clip.mp4".data, (none : Option JsVal)⟩ : VideoEntry).poster =
      none ∧
    (⟨"c".data, "videos/c.mp4".data, some (JsVal.vStr "p.jpg".data)⟩ : VideoEntry).poster =
      some (jsCoalesce (.vStr "p.jpg".data) (jsCoalesce .vUndefined .vNull)) :=
  ⟨c10_poster_shape.1 "clip.mp4".data _ (by decide),
   c10_poster_shape.2 (.vStr "c".data) .vUndefined .vUndefined (.vStr "videos/c.mp4".data)
     (.vStr "p.jpg".data) .vUndefined _ (by decide)⟩


/-! ### Dedupe lemmas and claims C5, C9 -/

theorem dedupeGo_spec (l : List (Option VideoEntry)) :
    ∀ (seen : List (List Char)) (prev : List (Option VideoEntry)),
    (∀ e ∈ l, entryValid e = true) →
    (∀ k, k ∈ seen ↔ ∃ w, some w ∈ prev ∧ w.url.map lowerChar = k) →
    dedupeGo seen l = specDedupe prev l := by
  induction l with
  | nil =>
    intro seen prev hval hinv
    rfl
  | cons e rest ih =>
    intro seen prev hval hinv
    match e with
    | none =>
      have := hval none (List.mem_cons_self none rest)
      simp [entryValid] at this
    | some v =>
      have hvu : v.url.isEmpty = false := by
        have := hval (some v) (List.mem_cons_self _ rest)
        dsimp only [entryValid] at this
        simp only [Bool.not_eq_eq_eq_not, Bool.not_true] at this
        exact this
      have hvalrest : ∀ x ∈ rest, entryValid x = true :=
        fun x hx => hval x (List.mem_cons_of_mem _ hx)
      have hkey : (v.url.map lowerChar ∈ seen) ↔ hasEarlierDup prev (some v) = true := by
        rw [hinv, hasEarlierDup, List.any_eq_true]
        constructor
        · rintro ⟨w, hw, heq⟩
          refine ⟨some w, hw, ?_⟩
          rw [beq_iff_eq]
          exact heq
        · rintro ⟨p, hp, hmatch⟩
          match p with
          | none => cases hmatch
          | some w =>
            rw [beq_iff_eq] at hmatch
            exact ⟨w, hp, hmatch⟩
      rw [dedupeGo, specDedupe]
      rw [if_neg (by rw [hvu]; simp)]
      by_cases hdup : hasEarlierDup prev (some v) = true
      · rw [if_pos (hkey.mpr hdup), if_pos hdup]
        refine ih seen (prev ++ [some v]) hvalrest ?_
        intro k
        rw [hinv]
        constructor
        · rintro ⟨w, hw, he⟩
          exact ⟨w, List.mem_append_left _ hw, he⟩
        · rintro ⟨w, hw, he⟩
          rcases List.mem_append.mp hw with hw2 | hw2
          · exact ⟨w, hw2, he⟩
          · rw [List.mem_singleton] at hw2
            injection hw2 with hw3
            subst hw3
            rw [hasEarlierDup, List.any_eq_true] at hdup
            obtain ⟨p, hp, hmatch⟩ := hdup
            match p with
            | none => cases hmatch
            | some w2 =>
              rw [beq_iff_eq] at hmatch
              refine ⟨w2, hp, ?_⟩
              rw [hmatch, he]
      · rw [if_neg (fun hmem => hdup (hkey.mp hmem)), if_neg hdup]
        congr 1
        refine ih (v.url.map lowerChar :: seen) (prev ++ [some v]) hvalrest ?_
        intro k
        rw [List.mem_cons, hinv]
        constructor
        · rintro (rfl | ⟨w, hw, he⟩)
          · exact ⟨v, List.mem_append_right _ (List.mem_singleton.mpr rfl), rfl⟩
          · exact ⟨w, List.mem_append_left _ hw, he⟩
        · rintro ⟨w, hw, he⟩
          rcases List.mem_append.mp hw with hw2 | hw2
          · exact Or.inr ⟨w, hw2, he⟩
          · rw [List.mem_singleton] at hw2
            injection hw2 with hw3
            subst hw3
            exact Or.inl he.symm

theorem dedupeGo_none (seen : List (List Char)) (rest : List (Option VideoEntry)) :
    dedupeGo seen (none :: rest) = dedupeGo seen rest := rfl

theorem dedupeGo_invalid (seen : List (List Char)) (v : VideoEntry)
    (rest : List (Option VideoEntry)) (h : v.url.isEmpty = true) :
    dedupeGo seen (some v :: rest) = dedupeGo seen rest := by
  rw [dedupeGo, if_pos h]

theorem dedupeGo_valid_cons (seen : List (List Char)) (v : VideoEntry)
    (rest : List (Option VideoEntry)) (h : v.url.isEmpty = false) :
    dedupeGo seen (some v :: rest) =
      if v.url.map lowerChar ∈ seen then dedupeGo seen rest
      else some v :: dedupeGo (v.url.map lowerChar :: seen) rest := by
  rw [dedupeGo, if_neg (by rw [h]; simp)]

theorem dedupeGo_filter (l : List (Option VideoEntry)) :
    ∀ seen, dedupeGo seen (l.filter entryValid) = dedupeGo seen l := by
  induction l with
  | nil => intro seen; rfl
  | cons e rest ih =>
    intro seen
    match e with
    | none =>
      rw [List.filter_cons_of_neg (by simp [entryValid]), dedupeGo_none, ih]
    | some v =>
      by_cases hv : v.url.isEmpty = true
      · rw [List.filter_cons_of_neg (by simp [entryValid, hv]),
          dedupeGo_invalid seen v rest hv, ih]
      · have hv2 : v.url.isEmpty = false := bool_ne_true _ hv
        rw [List.filter_cons_of_pos (by simp [entryValid, hv2])]
        rw [dedupeGo_valid_cons seen v (List.filter entryValid rest) hv2,
          dedupeGo_valid_cons seen v rest hv2]
        by_cases hm : v.url.map lowerChar ∈ seen
        · rw [if_pos hm, if_pos hm, ih]
        · rw [if_neg hm, if_neg hm, ih]

theorem dedupeGo_valid (l : List (Option VideoEntry)) :
    ∀ seen, ∀ e ∈ dedupeGo seen l, entryValid e = true := by
  induction l with
  | nil =>
    intro seen e he
    cases he
  | cons x rest ih =>
    intro seen e he
    match x with
    | none => exact ih seen e he
    | some v =>
      by_cases hv : v.url.isEmpty = true
      · rw [dedupeGo_invalid seen v rest hv] at he
        exact ih seen e he
      · have hv2 : v.url.isEmpty = false := bool_ne_true _ hv
        rw [dedupeGo_valid_cons seen v rest hv2] at he
        by_cases hm : v.url.map lowerChar ∈ seen
        · rw [if_pos hm] at he
          exact ih seen e he
        · rw [if_neg hm] at he
          rcases List.mem_cons.mp he with rfl | he2
          · dsimp only [entryValid]
            rw [hv2]
            rfl
          · exact ih _ e he2

/-- Claim C5 counterexample: an entry whose url is the empty string is
dropped by `dedupeEntries` even though no earlier entry has an equal url, so
the keep-iff-no-earlier-duplicate characterization fails on such lists. -/
theorem c5_counterexample :
    dedupeEntries [some ⟨"x".data, [], none⟩] ≠ [some ⟨"x".data, [], none⟩] := by decide

/-- Claim C5 amended: restricted to lists of valid entries (non-null, with a
non-empty url), `dedupeEntries` keeps an entry iff no earlier entry has a
case-insensitively equal url, preserving first-seen source order; on the
resolved url list a.mp4, A.MP4, b.mp4 exactly the first and the third
survive.  Null or url-less entries are additionally dropped (claim C9). -/
theorem c5_dedupe_amended :
    (∀ l, (∀ e ∈ l, entryValid e = true) → dedupeEntries l = specDedupe [] l) ∧
    dedupeEntries [some ⟨"a".data, "a.mp4".data, none⟩, some ⟨"A".data, "A.MP4".data, none⟩,
        some ⟨"b".data, "b.mp4".data, none⟩] =
      [some ⟨"a".data, "a.mp4".data, none⟩, some ⟨"b".data, "b.mp4".data, none⟩] := by
  constructor
  · intro l hval
    exact dedupeGo_spec l [] [] hval (by simp)
  · decide

/-- Witness for C5 amended at a concrete one-element valid list. -/
theorem c5_witness :
    dedupeEntries [some ⟨"a".data, "x.mp4".data, none⟩] =
      specDedupe [] [some ⟨"a".data, "x.mp4".data, none⟩] :=
  c5_dedupe_amended.1 _ (by decide)

/-- Claim C9: `dedupeEntries` also acts as a validity filter: null/undefined
entries and entries with an absent or empty url are dropped before duplicate
checking — the output equals the output on the pre-filtered list, and every
output entry is valid. -/
theorem c9_dedupe_validity (l : List (Option VideoEntry)) :
    dedupeEntries l = dedupeEntries (l.filter entryValid) ∧
    ∀ e ∈ dedupeEntries l, entryValid e = true := by
  constructor
  · rw [dedupeEntries, dedupeEntries, dedupeGo_filter l []]
  · exact dedupeGo_valid l []

/-- Witness for C9 at a concrete list containing a null entry. -/
theorem c9_witness :
    dedupeEntries [some ⟨"a".data, "x.mp4".data, none⟩, none] =
      dedupeEntries ([some ⟨"a".data, "x.mp4".data, none⟩, none].filter entryValid) ∧
    entryValid (some ⟨"a".data, "x.mp4".data, none⟩) = true :=
  ⟨(c9_dedupe_validity [some ⟨"a".data, "x.mp4".data, none⟩, none]).1,
   (c9_dedupe_validity [some ⟨"a".data, "x.mp4".data, none⟩, none]).2
     (some ⟨"a".data, "x.mp4".data, none⟩) (by decide)⟩


/-! ### Comparator laws and claim C6 -/

theorem lexCmp_swap (f : α → α → Ordering) (hf : ∀ a b, f a b = (f b a).swap) :
    ∀ l1 l2, lexCmp f l1 l2 = (lexCmp f l2 l1).swap := by
  intro l1
  induction l1 with
  | nil =>
    intro l2
    match l2 with
    | [] => rfl
    | b :: l2 => rfl
  | cons a l1 ih =>
    intro l2
    match l2 with
    | [] => rfl
    | b :: l2 =>
      cases hba : f b a with
      | lt =>
        rw [lexCmp, lexCmp, hf a b, hba]
        rfl
      | eq =>
        rw [lexCmp, lexCmp, hf a b, hba]
        exact ih l2
      | gt =>
        rw [lexCmp, lexCmp, hf a b, hba]
        rfl

theorem cmp_lt_of_lt_of_le (f : α → α → Ordering) (hf : ∀ a b, f a b = (f b a).swap)
    (htr : ∀ x y z, f x y ≠ .gt → f y z ≠ .gt → f x z ≠ .gt)
    (a b c : α) (hab : f a b = .lt) (hbc : f b c ≠ .gt) : f a c = .lt := by
  have hac : f a c ≠ .gt := htr a b c (by rw [hab]; simp) hbc
  cases hacv : f a c with
  | lt => rfl
  | gt => exact absurd hacv hac
  | eq =>
    have hca : f c a = .eq := by
      have := hf a c
      rw [hacv] at this
      cases hcav : f c a <;> rw [hcav] at this <;> first | rfl | cases this
    have hba : f b a ≠ .gt := htr b c a hbc (by rw [hca]; simp)
    have : f b a = .gt := by
      have := hf a b
      rw [hab] at this
      cases hbav : f b a <;> rw [hbav] at this <;> first | rfl | cases this
    exact absurd this hba

theorem cmp_lt_of_le_of_lt (f : α → α → Ordering) (hf : ∀ a b, f a b = (f b a).swap)
    (htr : ∀ x y z, f x y ≠ .gt → f y z ≠ .gt → f x z ≠ .gt)
    (a b c : α) (hab : f a b ≠ .gt) (hbc : f b c = .lt) : f a c = .lt := by
  have hac : f a c ≠ .gt := htr a b c hab (by rw [hbc]; simp)
  cases hacv : f a c with
  | lt => rfl
  | gt => exact absurd hacv hac
  | eq =>
    have hca : f c a = .eq := by
      have := hf a c
      rw [hacv] at this
      cases hcav : f c a <;> rw [hcav] at this <;> first | rfl | cases this
    have hcb : f c b ≠ .gt := htr c a b (by rw [hca]; simp) hab
    have : f c b = .gt := by
      have := hf b c
      rw [hbc] at this
      cases hcbv : f c b <;> rw [hcbv] at this <;> first | rfl | cases this
    exact absurd this hcb

theorem cmp_eq_of_eq_of_eq (f : α → α → Ordering) (hf : ∀ a b, f a b = (f b a).swap)
    (htr : ∀ x y z, f x y ≠ .gt → f y z ≠ .gt → f x z ≠ .gt)
    (a b c : α) (hab : f a b = .eq) (hbc : f b c = .eq) : f a c = .eq := by
  have hba : f b a = .eq := by
    have := hf a b
    rw [hab] at this
    cases hbav : f b a <;> rw [hbav] at this <;> first | rfl | cases this
  have hcb : f c b = .eq := by
    have := hf b c
    rw [hbc] at this
    cases hcbv : f c b <;> rw [hcbv] at this <;> first | rfl | cases this
  have hac : f a c ≠ .gt := htr a b c (by rw [hab]; simp) (by rw [hbc]; simp)
  have hca : f c a ≠ .gt := htr c b a (by rw [hcb]; simp) (by rw [hba]; simp)
  cases hacv : f a c with
  | eq => rfl
  | gt => exact absurd hacv hac
  | lt =>
    have : f c a = .gt := by
      have := hf a c
      rw [hacv] at this
      cases hcav : f c a <;> rw [hcav] at this <;> first | rfl | cases this
    exact absurd this hca

theorem lexCmp_le_trans (f : α → α → Ordering) (hf : ∀ a b, f a b = (f b a).swap)
    (htr : ∀ x y z, f x y ≠ .gt → f y z ≠ .gt → f x z ≠ .gt) :
    ∀ l1 l2 l3, lexCmp f l1 l2 ≠ .gt → lexCmp f l2 l3 ≠ .gt → lexCmp f l1 l3 ≠ .gt := by
  intro l1
  induction l1 with
  | nil =>
    intro l2 l3 h12 h23
    match l3 with
    | [] => simp [lexCmp]
    | c :: l3 => simp [lexCmp]
  | cons a l1 ih =>
    intro l2 l3 h12 h23
    match l2 with
    | [] =>
      rw [lexCmp] at h12
      exact absurd rfl h12
    | b :: l2 =>
      match l3 with
      | [] =>
        rw [lexCmp] at h23
        exact absurd rfl h23
      | c :: l3 =>
        rw [lexCmp] at h12 h23 ⊢
        cases hab : f a b with
        | gt =>
          rw [hab] at h12
          exact absurd rfl h12
        | lt =>
          cases hbc : f b c with
          | gt =>
            rw [hbc] at h23
            exact absurd rfl h23
          | lt =>
            rw [cmp_lt_of_lt_of_le f hf htr a b c hab (by rw [hbc]; simp)]
            simp
          | eq =>
            rw [cmp_lt_of_lt_of_le f hf htr a b c hab (by rw [hbc]; simp)]
            simp
        | eq =>
          cases hbc : f b c with
          | gt =>
            rw [hbc] at h23
            exact absurd rfl h23
          | lt =>
            rw [cmp_lt_of_le_of_lt f hf htr a b c (by rw [hab]; simp) hbc]
            simp
          | eq =>
            rw [cmp_eq_of_eq_of_eq f hf htr a b c hab hbc]
            rw [hab] at h12
            rw [hbc] at h23
            exact ih l2 l3 h12 h23

theorem natCmp_swap (a b : Nat) : natCmp a b = (natCmp b a).swap := by
  rw [natCmp, natCmp]
  split_ifs <;> first | rfl | omega

theorem natCmp_le_trans (a b c : Nat) (h1 : natCmp a b ≠ .gt) (h2 : natCmp b c ≠ .gt) :
    natCmp a c ≠ .gt := by
  rw [natCmp] at h1 h2 ⊢
  split_ifs at h1 h2 ⊢ <;> first | omega | simp_all

theorem charCmp_swap (a b : Char) : charCmp a b = (charCmp b a).swap :=
  natCmp_swap a.toNat b.toNat

theorem charCmp_le_trans (a b c : Char) (h1 : charCmp a b ≠ .gt) (h2 : charCmp b c ≠ .gt) :
    charCmp a c ≠ .gt :=
  natCmp_le_trans a.toNat b.toNat c.toNat h1 h2

theorem chunkCmp_swap (x y : Nat ⊕ List Char) : chunkCmp x y = (chunkCmp y x).swap := by
  match x, y with
  | .inl a, .inl b => exact natCmp_swap a b
  | .inl a, .inr b => rfl
  | .inr a, .inl b => rfl
  | .inr a, .inr b => exact lexCmp_swap charCmp charCmp_swap a b

theorem chunkCmp_le_trans (x y z : Nat ⊕ List Char) (h1 : chunkCmp x y ≠ .gt)
    (h2 : chunkCmp y z ≠ .gt) : chunkCmp x z ≠ .gt := by
  match x, y, z with
  | .inl a, .inl b, .inl c => exact natCmp_le_trans a b c h1 h2
  | .inl a, .inl b, .inr c => simp [chunkCmp]
  | .inl a, .inr b, .inl c => exact absurd rfl h2
  | .inl a, .inr b, .inr c => simp [chunkCmp]
  | .inr a, .inl b, _ => exact absurd rfl h1
  | .inr a, .inr b, .inl c => exact absurd rfl h2
  | .inr a, .inr b, .inr c =>
    exact lexCmp_le_trans charCmp charCmp_swap charCmp_le_trans a b c h1 h2

instance : IsTrans VideoEntry entryLE :=
  ⟨fun a b c h1 h2 =>
    lexCmp_le_trans chunkCmp chunkCmp_swap chunkCmp_le_trans
      (chunkify a.name) (chunkify b.name) (chunkify c.name) h1 h2⟩

instance : IsTotal VideoEntry entryLE :=
  ⟨fun a b => by
    unfold entryLE nameCmp
    cases h : lexCmp chunkCmp (chunkify a.name) (chunkify b.name) with
    | lt =>
      left
      simp
    | eq =>
      left
      simp
    | gt =>
      right
      intro hgt
      have := lexCmp_swap chunkCmp chunkCmp_swap (chunkify a.name) (chunkify b.name)
      rw [h, hgt] at this
      cases this⟩

/-- Claim C6: the final discovered list (after dedupe) is sorted by entry
name under the numeric-aware, case-insensitive comparison, and entries named
video2, video10, video1 come out in the order video1, video2, video10. -/
theorem c6_sorted (discovered : List (Option VideoEntry)) :
    List.Sorted entryLE (processEntries discovered) ∧
    (sortEntries [⟨"video2".data, "u2".data, none⟩, ⟨"video10".data, "u10".data, none⟩,
        ⟨"video1".data, "u1".data, none⟩]).map VideoEntry.name =
      ["video1".data, "video2".data, "video10".data] :=
  ⟨List.sorted_insertionSort entryLE _, by decide⟩


/-! ### Error-kind lemmas and claims C7, C8 -/

theorem jsDecodeURI_error (x : List Char) (e : JsErr) (h : jsDecodeURI x = .error e) :
    e = .uriError := by
  rw [jsDecodeURI] at h
  cases hp : percentDecode x with
  | some d =>
    rw [hp] at h
    cases h
  | none =>
    rw [hp] at h
    injection h with h2
    exact h2.symm

theorem resolveVideoPathJs_error (u : JsVal) (e : JsErr)
    (h : resolveVideoPathJs u = .error e) : e = .typeError := by
  match u with
  | .vStr s => cases h
  | .vUndefined => injection h with h2; exact h2.symm
  | .vNull => injection h with h2; exact h2.symm
  | .vBool b => injection h with h2; exact h2.symm
  | .vNum n => injection h with h2; exact h2.symm

theorem normalizeEntry_error_kinds (r : RawRecord) (e : JsErr)
    (h : normalizeEntry r = .error e) : e = .typeError ∨ e = .uriError := by
  match r with
  | .rStr s =>
    have h2 : createEntryFromPath s = .error e := h
    rw [createEntryFromPath] at h2
    cases hd : jsDecodeURI (nameFromPath (resolveVideoPath s)) with
    | error e2 =>
      rw [hd] at h2
      dsimp only at h2
      injection h2 with h3
      subst h3
      exact Or.inr (jsDecodeURI_error _ _ hd)
    | ok nm =>
      rw [hd] at h2
      dsimp only at h2
      cases h2
  | .rObj nameF fileF titleF urlF posterF thumbF =>
    rw [normalizeEntry] at h
    split at h
    · cases h
    · cases hru : resolveVideoPathJs (objRawUrl nameF fileF titleF urlF) with
      | error e2 =>
        rw [hru] at h
        dsimp only at h
        injection h with h3
        subst h3
        exact Or.inl (resolveVideoPathJs_error _ _ hru)
      | ok u =>
        rw [hru] at h
        dsimp only at h
        cases hd : jsDecodeURI (if truthy (objFileName nameF fileF titleF) then
            jsToString (objFileName nameF fileF titleF)
          else nameFromPath u) with
        | error e2 =>
          rw [hd] at h
          dsimp only at h
          injection h with h3
          subst h3
          exact Or.inr (jsDecodeURI_error _ _ hd)
        | ok nm =>
          rw [hd] at h
          dsimp only at h
          cases h
  | .rNull => cases h
  | .rUndefined => cases h
  | .rNum n => cases h
  | .rBool b => cases h

theorem normalizeAll_error_kinds (l : List RawRecord) :
    ∀ e, normalizeAll l = .error e → e = .typeError ∨ e = .uriError := by
  induction l with
  | nil =>
    intro e h
    cases h
  | cons r rest ih =>
    intro e h
    rw [normalizeAll] at h
    cases hr : normalizeEntry r with
    | error e2 =>
      rw [hr] at h
      dsimp only at h
      injection h with h2
      subst h2
      exact normalizeEntry_error_kinds r _ hr
    | ok v =>
      rw [hr] at h
      dsimp only at h
      cases hrest : normalizeAll rest with
      | error e2 =>
        rw [hrest] at h
        dsimp only at h
        injection h with h2
        subst h2
        exact ih _ hrest
      | ok tail =>
        rw [hrest] at h
        dsimp only at h
        cases h

theorem normalizeEntry_href_some (x : List Char) (hx : x ≠ []) (v : Option VideoEntry)
    (h : normalizeEntry (hrefRecord x) = .ok v) : ∃ w, v = some w := by
  have hxe : x.isEmpty = false := by
    match x, hx with
    | c :: rest, _ => rfl
  rw [hrefRecord, normalizeEntry] at h
  dsimp only [objRawUrl, objFileName, jsCoalesce] at h
  rw [if_neg (by dsimp only [truthy]; rw [hxe]; simp)] at h
  dsimp only [resolveVideoPathJs] at h
  cases hd : jsDecodeURI (if truthy (JsVal.vStr (nameFromPath x)) then
      jsToString (JsVal.vStr (nameFromPath x))
    else nameFromPath (resolveVideoPath x)) with
  | error e =>
    rw [hd] at h
    cases h
  | ok nm =>
    rw [hd] at h
    dsimp only at h
    injection h with h2
    exact ⟨_, h2.symm⟩

theorem normalizeAll_hrefs_length (hs : List (List Char)) (hne : ∀ h ∈ hs, h ≠ []) :
    ∀ l, normalizeAll (hs.map hrefRecord) = .ok l → l.length = hs.length := by
  induction hs with
  | nil =>
    intro l h
    injection h with h2
    rw [← h2]
    rfl
  | cons x rest ih =>
    intro l h
    rw [List.map_cons, normalizeAll] at h
    cases hr : normalizeEntry (hrefRecord x) with
    | error e =>
      rw [hr] at h
      dsimp only at h
      cases h
    | ok v =>
      rw [hr] at h
      dsimp only at h
      cases hrest : normalizeAll (rest.map hrefRecord) with
      | error e =>
        rw [hrest] at h
        dsimp only at h
        cases h
      | ok tail =>
        rw [hrest] at h
        dsimp only at h
        obtain ⟨w, rfl⟩ :=
          normalizeEntry_href_some x (hne x (List.mem_cons_self x rest)) v hr
        dsimp only at h
        injection h with h2
        rw [← h2, List.length_cons, List.length_cons,
          ih (fun y hy => hne y (List.mem_cons_of_mem x hy)) tail hrest]

theorem candidateHrefs_facts (hrefs : List (List Char)) :
    ∀ x ∈ candidateHrefs hrefs, isMp4 x = true ∧ x ≠ [] ∧
      List.isPrefixOf "../".data x = false := by
  intro x hx
  obtain ⟨hx1, hmp4⟩ := List.mem_filter.mp hx
  obtain ⟨_, hkeep⟩ := List.mem_filter.mp hx1
  rw [keepHref, Bool.and_eq_true] at hkeep
  obtain ⟨hne, hpre⟩ := hkeep
  refine ⟨hmp4, ?_, ?_⟩
  · intro hnil
    subst hnil
    cases hne
  · rw [Bool.not_eq_eq_eq_not, Bool.not_true] at hpre
    exact hpre

/-- Claim C8 counterexample: an href beginning with the parent-directory
token is not discarded: `../up.mp4` has only its leading dot stripped by
`replace(/^\.\/?/, "")`, giving `./up.mp4`, which survives both filters and
becomes the entry `videos/up.mp4` instead of leaving the listing empty. -/
theorem c8_counterexample :
    scrapeDirectoryListing 200 ["../up.mp4".data] =
      .ok [⟨"up.mp4".data, "videos/up.mp4".data, some .vNull⟩] ∧
    scrapeDirectoryListing 200 ["../up.mp4".data] ≠ .error .emptyError :=
  ⟨by decide, by decide⟩

/-- Claim C8 amended: each href has its query dropped and then one leading
dot stripped together with at most one slash directly after it (so `./a`
becomes `a`, but `.foo` becomes `foo` and `../x` becomes `./x`, which then
escapes the parent-directory filter); hrefs that are then empty or begin
with `../` are discarded; only case-insensitive `.mp4` suffixes survive; a
non-success status fails with FetchError, and, given a success status, load
fails with EmptyError exactly when zero candidates survive the filters. -/
theorem c8_scrape_amended (status : Nat) (hrefs : List (List Char)) :
    (respOk status = false → scrapeDirectoryListing status hrefs = .error .fetchError) ∧
    (respOk status = true →
      (scrapeDirectoryListing status hrefs = .error .emptyError ↔
        candidateHrefs hrefs = [])) ∧
    (∀ x ∈ candidateHrefs hrefs, isMp4 x = true ∧ x ≠ [] ∧
      List.isPrefixOf "../".data x = false) ∧
    stripDotSlashOnce ('.' :: '/' :: "a.mp4".data) = "a.mp4".data ∧
    stripDotSlashOnce ('.' :: "foo".data) = "foo".data ∧
    stripDotSlashOnce ('.' :: '.' :: '/' :: "x.mp4".data) = '.' :: '/' :: "x.mp4".data := by
  refine ⟨?_, ?_, candidateHrefs_facts hrefs, by decide, by decide, by decide⟩
  · intro hr
    rw [scrapeDirectoryListing, if_pos hr]
  · intro hr
    have hvalid : ∀ x ∈ candidateHrefs hrefs, x ≠ [] :=
      fun x hx => (candidateHrefs_facts hrefs x hx).2.1
    rw [scrapeDirectoryListing, if_neg (by rw [hr]; simp)]
    cases hN : normalizeAll ((candidateHrefs hrefs).map hrefRecord) with
    | error e =>
      dsimp only
      constructor
      · intro he
        injection he with h2
        rcases normalizeAll_error_kinds _ e hN with h3 | h3 <;> rw [h2] at h3 <;> cases h3
      · intro hc
        rw [hc, List.map_nil] at hN
        cases hN
    | ok entries =>
      dsimp only
      constructor
      · intro he
        by_cases hE : entries.isEmpty = true
        · have hlen := normalizeAll_hrefs_length (candidateHrefs hrefs) hvalid entries hN
          have : entries = [] := by
            match entries, hE with
            | [], _ => rfl
          rw [this] at hlen
          exact List.eq_nil_of_length_eq_zero hlen.symm
        · rw [if_neg hE] at he
          cases he
      · intro hc
        rw [hc, List.map_nil] at hN
        injection hN with h2
        rw [← h2]
        rfl

/-- Witness for C8 amended at concrete statuses and listings. -/
theorem c8_witness :
    scrapeDirectoryListing 503 [] = .error .fetchError ∧
    (scrapeDirectoryListing 200 ["notes.txt".data] = .error .emptyError ↔
      candidateHrefs ["notes.txt".data] = []) :=
  ⟨(c8_scrape_amended 503 []).1 (by decide), (c8_scrape_amended 200 _).2.1 (by decide)⟩

/-- Claim C7 counterexample: on success `fetchManifest` does not return the
raw elements unnormalized: the manifest entry `a b.mp4` comes back as a
normalized entry, base directory prefixed and the space percent-escaped. -/
theorem c7_counterexample :
    fetchManifest 200 (.arr [.rStr "a b.mp4".data]) =
      .ok [⟨"a b.mp4".data, "videos/a%20b.mp4".data, none⟩] ∧
    "videos/a%20b.mp4".data ≠ "a b.mp4".data :=
  ⟨by decide, by decide⟩

/-- Claim C7 amended: loading the manifest fails with NotFound exactly on
status 404, with FetchError on any other non-success status, with
FormatError when the parsed payload is neither an array nor null nor an
object with a `files` array (a null payload raises a TypeError instead), and
on success it returns the entries already normalized — each element mapped
through `normalizeEntry` with the nulls dropped inside the source, not by
the caller. -/
theorem c7_fetchManifest_amended :
    (∀ p, fetchManifest 404 p = .error .notFound) ∧
    (∀ s p, s ≠ 404 → respOk s = false → fetchManifest s p = .error .fetchError) ∧
    (∀ s fs, respOk s = true →
      fetchManifest s (.obj none) = .error .formatError ∧
      fetchManifest s .prim = .error .formatError ∧
      fetchManifest s .pnull = .error .typeError ∧
      fetchManifest s (.arr fs) = normalizeAll fs ∧
      fetchManifest s (.obj (some fs)) = normalizeAll fs) := by
  refine ⟨?_, ?_, ?_⟩
  · intro p
    rw [fetchManifest.eq_def, if_pos rfl]
  · intro s p hs hr
    rw [fetchManifest.eq_def, if_neg hs, if_pos hr]
  · intro s fs hr
    have hs : ¬(s = 404) := by
      intro he
      subst he
      cases hr
    refine ⟨?_, ?_, ?_, ?_, ?_⟩ <;>
      rw [fetchManifest.eq_def, if_neg hs, if_neg (by rw [hr]; simp)]

/-- Witness for C7 amended at concrete statuses and payloads. -/
theorem c7_witness :
    fetchManifest 404 (.arr []) = .error .notFound ∧
    fetchManifest 500 (.arr []) = .error .fetchError ∧
    fetchManifest 200 .pnull = .error .typeError ∧
    fetchManifest 200 (.arr [.rStr "b.mp4".data]) = normalizeAll [.rStr "b.mp4".data] :=
  ⟨c7_fetchManifest_amended.1 (.arr []),
   c7_fetchManifest_amended.2.1 500 (.arr []) (by decide) (by decide),
   (c7_fetchManifest_amended.2.2 200 [] (by decide)).2.2.1,
   (c7_fetchManifest_amended.2.2 200 [.rStr "b.mp4".data] (by decide)).2.2.2.1⟩

end VideoLib
